import Mathlib

/-!
Verification of the "0.1M" tiled-map archive decoder (maputils).

The development shallowly embeds the two pipeline variants of the source
(`map.rs`, the variant without mask rendering, and `new_map.rs`, the variant
that decompresses and unpacks the mask bit-plane).  Machine integers are
modelled as `Nat` with explicit `% 2 ^ 32` wherever the source performs `u32`
arithmetic that can wrap.  Fallible operations return `Except Err`; Rust
panics (out-of-bounds indexing, `Vec::insert` past the end) are modelled by
the dedicated error value `Err.panicked`.

The byte-cursor primitives (`crate::buffer_utils`) are not part of the
source tree; they are modelled from the spec, §4.1.  The external LZO block
decompressor is modelled as an abstract function parameter, per the contract
of spec §6.  `std::io::Cursor` seeking follows the documented std semantics:
`SeekFrom::Start` never fails, even past the end of the buffer.
-/

namespace MapUtils

/-- Byte buffers are lists of byte values (each `< 256` in practice). -/
abbrev Bytes := List Nat

/-- Modulus of `u32` arithmetic. -/
def U32M : Nat := 2 ^ 32

/-- Error kinds of the decoder, following the spec's taxonomy (§7), plus
`panicked`, which models a Rust panic (out-of-bounds slice or vector index,
or `Vec::insert` past the end). -/
inductive Err where
  | truncated
  | outOfRange
  | invalidFormat
  | encodingError
  | maskDecompressionFailed
  | panicked
deriving DecidableEq

/-- The `n`-byte slice of `buf` starting at absolute position `p`. -/
def slice (buf : Bytes) (p n : Nat) : Bytes := (buf.drop p).take n

/-- Little-endian interpretation of a 4-byte list (`u32::from_le_bytes`). -/
def leU32 : Bytes → Nat
  | a :: b :: c :: d :: _ => a + 256 * (b + 256 * (c + 256 * d))
  | _ => 0

/-- Modelled from the spec: §4.1 byte-cursor `read_bytes` of the missing
`buffer_utils` module — read exactly `n` bytes advancing the position, or
fail with `Truncated` when fewer than `n` bytes remain. -/
def readBytes (buf : Bytes) (p n : Nat) : Except Err (Bytes × Nat) :=
  if p + n ≤ buf.length then .ok (slice buf p n, p + n) else .error .truncated

/-- Modelled from the spec: §4.1 byte-cursor `read_u32` of the missing
`buffer_utils` module — a 4-byte little-endian read. -/
def readU32 (buf : Bytes) (p : Nat) : Except Err (Nat × Nat) :=
  match readBytes buf p 4 with
  | .error e => .error e
  | .ok (bs, p1) => .ok (leU32 bs, p1)

/-- `std::io::Cursor` absolute seek: `SeekFrom::Start` always succeeds and
simply sets the position, which may lie beyond the end of the buffer (the
source seeks on the std cursor directly, not through `buffer_utils`). -/
def seekStart (_buf : Bytes) (target : Nat) : Nat := target

/-- UTF-8 validity of a byte list, modelling `String::from_utf8` acceptance
(RFC 3629 table: ASCII, 2-, 3- and 4-byte sequences with their continuation
ranges, surrogates and values above U+10FFFF excluded). -/
def validUtf8 : Bytes → Bool
  | [] => true
  | b :: rest =>
    if b < 0x80 then validUtf8 rest
    else if 0xC2 ≤ b ∧ b ≤ 0xDF then
      match rest with
      | c1 :: r => (0x80 ≤ c1 && c1 ≤ 0xBF) && validUtf8 r
      | _ => false
    else if b = 0xE0 then
      match rest with
      | c1 :: c2 :: r =>
        (0xA0 ≤ c1 && c1 ≤ 0xBF) && ((0x80 ≤ c2 && c2 ≤ 0xBF) && validUtf8 r)
      | _ => false
    else if (0xE1 ≤ b ∧ b ≤ 0xEC) ∨ b = 0xEE ∨ b = 0xEF then
      match rest with
      | c1 :: c2 :: r =>
        (0x80 ≤ c1 && c1 ≤ 0xBF) && ((0x80 ≤ c2 && c2 ≤ 0xBF) && validUtf8 r)
      | _ => false
    else if b = 0xED then
      match rest with
      | c1 :: c2 :: r =>
        (0x80 ≤ c1 && c1 ≤ 0x9F) && ((0x80 ≤ c2 && c2 ≤ 0xBF) && validUtf8 r)
      | _ => false
    else if b = 0xF0 then
      match rest with
      | c1 :: c2 :: c3 :: r =>
        (0x90 ≤ c1 && c1 ≤ 0xBF) && ((0x80 ≤ c2 && c2 ≤ 0xBF) &&
          ((0x80 ≤ c3 && c3 ≤ 0xBF) && validUtf8 r))
      | _ => false
    else if 0xF1 ≤ b ∧ b ≤ 0xF3 then
      match rest with
      | c1 :: c2 :: c3 :: r =>
        (0x80 ≤ c1 && c1 ≤ 0xBF) && ((0x80 ≤ c2 && c2 ≤ 0xBF) &&
          ((0x80 ≤ c3 && c3 ≤ 0xBF) && validUtf8 r))
      | _ => false
    else if b = 0xF4 then
      match rest with
      | c1 :: c2 :: c3 :: r =>
        (0x80 ≤ c1 && c1 ≤ 0x8F) && ((0x80 ≤ c2 && c2 ≤ 0xBF) &&
          ((0x80 ≤ c3 && c3 ≤ 0xBF) && validUtf8 r))
      | _ => false
    else false

/-- The magic bytes, the ASCII text of the literal "0.1M". -/
def magicBytes : Bytes := [0x30, 0x2E, 0x31, 0x4D]

/-- The ASCII bytes of the tile tag "GEPJ". -/
def gepjTag : Bytes := [0x47, 0x45, 0x50, 0x4A]

/-- The ASCII bytes of the tile tag "2GPJ". -/
def jpg2Tag : Bytes := [0x32, 0x47, 0x50, 0x4A]

/-- `bytes.chunks(4).map(u32::from_le_bytes([x[0],x[1],x[2],x[3]]))`: the
final chunk of `chunks` may be shorter than 4, in which case indexing
`x[1]`/`x[2]`/`x[3]` in the closure is out of bounds — a panic. -/
def chunksU32 : Bytes → Except Err (List Nat)
  | [] => .ok []
  | a :: b :: c :: d :: rest =>
    match chunksU32 rest with
    | .error e => .error e
    | .ok l => .ok (leU32 [a, b, c, d] :: l)
  | _ => .error .panicked

/-- Round `num / den` to the nearest integer, ties to even — the IEEE-754
default rounding used by all the `f32` steps modelled below. -/
def roundNE (num den : Nat) : Nat :=
  let q := num / den
  let r := num % den
  if 2 * r < den then q
  else if den < 2 * r then q + 1
  else if q % 2 = 0 then q else q + 1

/-- Fuelled base-2 logarithm (kernel-reducible; `lg2 fuel n` is the floor
log of `n` whenever `n ≤ fuel`). -/
def lg2 : Nat → Nat → Nat
  | 0, _ => 0
  | fuel + 1, n => if n ≤ 1 then 0 else lg2 fuel (n / 2) + 1

/-- Floor base-2 logarithm, `log2m 0 = 0`. -/
def log2m (n : Nat) : Nat := lg2 n n

/-- Model of Rust `n as f32` for `n : u32`: the value of the nearest `f32`
(ties to even) to `n`, returned as a natural number.  Exact for `n ≤ 2^24`;
above that the binade of `n` has grid step `2^(e-23)` where `e = ⌊log₂ n⌋`,
and rounding `n` to that grid with ties to even is the IEEE conversion.
(When the rounding carries up to `2^(e+1)` the result is still the correctly
rounded value, representable with the next exponent.) -/
def toF32 (n : Nat) : Nat :=
  if n ≤ 2 ^ 24 then n
  else
    let e := log2m n
    roundNE n (2 ^ (e - 23)) * 2 ^ (e - 23)

/-- Model of Rust `((x as f32) / q).ceil() as u32` for an integer-valued
`f32` operand `x` (given as the natural `a`) and an integer constant divisor
`q` (240 or 320 in this format).  IEEE division returns the correctly
rounded quotient: with `f = ⌊a/q⌋ ≥ 1` and `e = ⌊log₂ f⌋` the true quotient
lies in the binade `[2^e, 2^(e+1)]`, whose grid step is `2^(e-23)`, so the
correctly rounded quotient is `roundNE (a·2^(23-e)) q / 2^(23-e)` and its
ceiling is computed by natural ceiling division.  For `0 < a < q` the true
quotient lies in `(0, 1)` and is far above the subnormal range (it is at
least `1/320`), so its rounding lies in `(0, 1]` and the ceiling is `1`.
For `e > 23` the grid step is at least 2, every grid value is an integer
and the ceiling is the identity.  The final `as u32` cast is the identity
on every value this format can produce. -/
def f32CeilDiv (q a : Nat) : Nat :=
  if a = 0 then 0
  else
    let f := a / q
    if f = 0 then 1
    else
      let e := log2m f
      if e ≤ 23 then
        (roundNE (a * 2 ^ (23 - e)) q + (2 ^ (23 - e) - 1)) / 2 ^ (23 - e)
      else
        roundNE a (q * 2 ^ (e - 23)) * 2 ^ (e - 23)

/-- `((height as f32) / 240.00).ceil() as u32` of `read_header`. -/
def rowsOf (height : Nat) : Nat := f32CeilDiv 240 (toF32 height)

/-- `((width as f32) / 320.00).ceil() as u32` of `read_header`. -/
def colsOf (width : Nat) : Nat := f32CeilDiv 320 (toF32 width)

/-- 地图文件头 — the archive header.  `map_index_list` holds the tile
offsets; strings are carried as their byte lists (UTF-8 encoding is
injective, so byte-level comparison agrees with Rust string comparison). -/
structure MapHeader where
  flag : Nat
  width : Nat
  height : Nat
  map_index_list : List Nat
  rows : Nat
  cols : Nat
  index_size : Nat
deriving DecidableEq

/-- 地图单元数据 — one tile unit; `unit_flag` is the 4-byte tag. -/
structure Unit where
  unit_flag : Bytes
  size : Nat
  unit_data : Bytes
deriving DecidableEq

/-- 遮罩数据 — one mask record. -/
structure Mask where
  x : Nat
  y : Nat
  width : Nat
  height : Nat
  size : Nat
  data : Bytes
deriving DecidableEq

/-- 地图数据 — the decoded archive. -/
structure Map where
  map_header : MapHeader
  units : List Unit
  masks : List Mask
deriving DecidableEq

/-- `read_header` (identical in both source variants): validate the magic,
read width and height, derive the tile grid (`rows = rowsOf height`,
`cols = colsOf width`, `index_size = rows * cols` in `u32`) and read
`index_size * 4` (in `u32`) bytes of offset index.  Returns the header
together with the cursor position after it. -/
def read_header (buf : Bytes) : Except Err (MapHeader × Nat) :=
  match readBytes buf 0 4 with
  | .error e => .error e
  | .ok (flagBytes, p1) =>
    if validUtf8 flagBytes then
      if flagBytes = magicBytes then
        match readU32 buf p1 with
        | .error e => .error e
        | .ok (width, p2) =>
          match readU32 buf p2 with
          | .error e => .error e
          | .ok (height, p3) =>
            match readBytes buf p3 (rowsOf height * colsOf width % U32M * 4 % U32M) with
            | .error e => .error e
            | .ok (indexBytes, p4) =>
              match chunksU32 indexBytes with
              | .error e => .error e
              | .ok lst =>
                .ok ({ flag := leU32 flagBytes, width := width, height := height,
                       map_index_list := lst, rows := rowsOf height,
                       cols := colsOf width,
                       index_size := rowsOf height * colsOf width % U32M }, p4)
      else .error .invalidFormat
    else .error .encodingError

/-- `Vec::insert(i, a)`: shift everything from position `i` rightwards.  The
callers below guard `i ≤ l.length` explicitly, as the Rust method panics
past the end. -/
def insertAt (i : Nat) (a : Nat) (l : Bytes) : Bytes := l.take i ++ a :: l.drop i

/-- The marker-scanning loop of `read_jpeg` (identical in both source
variants).  The Rust loop is `for index in 0..unit.unit_data.len()`: the
range is evaluated once, so the loop runs exactly over the indices of the
original byte list even though insertions grow the vector; here `fuel`
counts the remaining iterations of that fixed range.  Every index
expression is bounds-checked because the source's `unit_data[index + 1]`,
`unit_data[index + 3] = …` and `Vec::insert` panic when out of range. -/
def jpegFixGo : Nat → Nat → Bytes → Bool → Except Err Bytes
  | 0, _, data, _ => .ok data
  | fuel + 1, index, data, isFFDA =>
    match isFFDA with
    | false =>
      match data.get? index with
      | none => .error .panicked
      | some b =>
        if b = 0xFF then
          match data.get? (index + 1) with
          | none => .error .panicked
          | some b1 =>
            if b1 = 0xDA then
              if index + 3 < data.length then
                let d1 := data.set (index + 3) 0x0C
                -- the three `insert` calls need `index + 13 ≤ length`,
                -- `index + 14 ≤ length + 1`, `index + 15 ≤ length + 2`:
                -- all three are the same condition
                if index + 13 ≤ d1.length then
                  let d2 := insertAt (index + 13) 0x00 d1
                  let d3 := insertAt (index + 14) 0x3F d2
                  let d4 := insertAt (index + 15) 0x00 d3
                  jpegFixGo fuel (index + 1) d4 true
                else .error .panicked
              else .error .panicked
            else jpegFixGo fuel (index + 1) data false
        else jpegFixGo fuel (index + 1) data false
    | true =>
      match data.get? index with
      | none => .error .panicked
      | some b =>
        if b = 0xFF then
          match data.get? (index + 1) with
          | none => .error .panicked
          | some b1 =>
            if b1 = 0xD9 then .ok data
            else jpegFixGo fuel (index + 1) (insertAt (index + 1) 0x00 data) true
        else jpegFixGo fuel (index + 1) data true

/-- The in-place repair that `read_jpeg` applies to a freshly read "GEPJ"
payload: find the first `FF DA`, force the scan-header length byte to
`0x0C`, splice in `00 3F 00`, then stuff a `00` after each later literal
`FF` until `FF D9` — all while iterating only over the indices of the
original payload. -/
def jpegFix (data : Bytes) : Except Err Bytes := jpegFixGo data.length 0 data false

/-- `aiginw` of `new_map::read_mask`:
`((width >> 2) + if width % 4 != 0 { 1 } else { 0 }) << 2` in `u32`. -/
def aiginw (width : Nat) : Nat :=
  (((width >>> 2) + if width % 4 ≠ 0 then 1 else 0) <<< 2) % U32M

/-- The spec's `align4` formula, stated without machine wrapping, for
comparison with the source's `aiginw`. -/
def align4Spec (w : Nat) : Nat :=
  ((w >>> 2) + if w % 4 ≠ 0 then 1 else 0) <<< 2

/-- `mask_index` of `new_map::read_mask`: the byte length of the buffer
allocated for the decompressed mask plane, `(aiginw * height) >> 2` in
`u32`. -/
def maskOutLen (width height : Nat) : Nat :=
  ((aiginw width * height) % U32M) >>> 2

/-- One step of the bit-plane unpacking loop of `new_map::read_mask` at
pixel `p = k * width + i`:
`index = (k * aiginw + i) << 1` (in `u32`), `mask = out[index >> 3]`
(`none` models the out-of-bounds panic), `mask >> (index % 8) & 3 == 3`
selects `0xF0`, anything else leaves the initial `0`. -/
def unpackPixel (out : Bytes) (aw width : Nat) (p : Nat) : Option Nat :=
  let k := p / width
  let i := p % width
  let index := (((k * aw) % U32M + i) % U32M * 2) % U32M
  match out.get? (index >>> 3) with
  | none => none
  | some m => some (if (m >>> (index % 8)) &&& 3 = 3 then 0xF0 else 0)

/-- Option-valued `mapM` over a list (kernel-friendly, order preserving). -/
def optMapM (f : Nat → Option Nat) : List Nat → Option (List Nat)
  | [] => some []
  | x :: xs =>
    match f x, optMapM f xs with
    | some y, some ys => some (y :: ys)
    | _, _ => none

/-- The whole unpacking double loop of `new_map::read_mask`: `mask_data`
is allocated as `vec![0; (width * height) as usize]` with a `u32`
multiplication, while `desc` enumerates all `width * height` pixels in
row-major order, so when `width * height` wraps in `u32` the write
`mask_data[desc]` panics; otherwise each pixel is `unpackPixel`. -/
def unpack (out : Bytes) (aw width height : Nat) : Except Err (List Nat) :=
  if width * height < U32M then
    match optMapM (unpackPixel out aw width) (List.range (width * height)) with
    | none => .error .panicked
    | some l => .ok l
  else .error .panicked

/-- The mask offset table (identical in both variants): one unused `u32`,
the record count, then `mask_num * 4` bytes of little-endian offsets. -/
def maskTable (buf : Bytes) (pos : Nat) : Except Err (List Nat × Nat) :=
  match readU32 buf pos with
  | .error e => .error e
  | .ok (_, p1) =>
    match readU32 buf p1 with
    | .error e => .error e
    | .ok (maskNum, p2) =>
      match readBytes buf p2 ((maskNum * 4) % U32M) with
      | .error e => .error e
      | .ok (maskData, p3) =>
        match chunksU32 maskData with
        | .error e => .error e
        | .ok offs => .ok (offs, p3)

/-- The abstract external block decompressor (spec §6): compressed bytes
and the caller-chosen output-buffer length in, either a decompressed byte
list (the written slice `out.0`) or `none` for a non-OK status. -/
abbrev Decomp := Bytes → Nat → Option Bytes

namespace Old

/-- `map::read_mask`, per-record part: seek to the record, read the
geometry and the declared-size payload, and store the payload bytes raw —
this variant never touches a decompressor. -/
def readMaskAt (buf : Bytes) (offset : Nat) : Except Err Mask :=
  let p0 := seekStart buf offset
  match readU32 buf p0 with
  | .error e => .error e
  | .ok (x, p1) =>
    match readU32 buf p1 with
    | .error e => .error e
    | .ok (y, p2) =>
      match readU32 buf p2 with
      | .error e => .error e
      | .ok (width, p3) =>
        match readU32 buf p3 with
        | .error e => .error e
        | .ok (height, p4) =>
          match readU32 buf p4 with
          | .error e => .error e
          | .ok (size, p5) =>
            match readBytes buf p5 size with
            | .error e => .error e
            | .ok (data, _) =>
              .ok { x := x, y := y, width := width, height := height,
                    size := size, data := data }

/-- The record loop of `map::read_mask` over the parsed offset list. -/
def readMasksFrom (buf : Bytes) : List Nat → Except Err (List Mask)
  | [] => .ok []
  | o :: rest =>
    match readMaskAt buf o with
    | .error e => .error e
    | .ok m =>
      match readMasksFrom buf rest with
      | .error e => .error e
      | .ok ms => .ok (m :: ms)

/-- `map::read_mask`: offset table, then one raw record per offset. -/
def read_mask (buf : Bytes) (pos : Nat) : Except Err (List Mask) :=
  match maskTable buf pos with
  | .error e => .error e
  | .ok (offs, _) => readMasksFrom buf offs

end Old

namespace New

/-- `new_map::read_mask`, per-record part: read the geometry and payload,
decompress through the external decompressor into a buffer of
`maskOutLen width height` bytes (a non-OK status is fatal), unpack the
bit-plane (panics propagate), and store the decompressed bytes.  The
RGBA rendering and the `image.save` debug output consume only copies of
this data and are outside the decoded result; they are omitted. -/
def readMaskAt (D : Decomp) (buf : Bytes) (offset : Nat) : Except Err Mask :=
  let p0 := seekStart buf offset
  match readU32 buf p0 with
  | .error e => .error e
  | .ok (x, p1) =>
    match readU32 buf p1 with
    | .error e => .error e
    | .ok (y, p2) =>
      match readU32 buf p2 with
      | .error e => .error e
      | .ok (width, p3) =>
        match readU32 buf p3 with
        | .error e => .error e
        | .ok (height, p4) =>
          match readU32 buf p4 with
          | .error e => .error e
          | .ok (size, p5) =>
            match readBytes buf p5 size with
            | .error e => .error e
            | .ok (data, _) =>
              match D data (maskOutLen width height) with
              | none => .error .maskDecompressionFailed
              | some out =>
                match unpack out (aiginw width) width height with
                | .error e => .error e
                | .ok _maskData =>
                  .ok { x := x, y := y, width := width, height := height,
                        size := size, data := out }

/-- The record loop of `new_map::read_mask` over the parsed offset list. -/
def readMasksFrom (D : Decomp) (buf : Bytes) : List Nat → Except Err (List Mask)
  | [] => .ok []
  | o :: rest =>
    match readMaskAt D buf o with
    | .error e => .error e
    | .ok m =>
      match readMasksFrom D buf rest with
      | .error e => .error e
      | .ok ms => .ok (m :: ms)

/-- `new_map::read_mask`: offset table, then one decompressed record per
offset. -/
def read_mask (D : Decomp) (buf : Bytes) (pos : Nat) : Except Err (List Mask) :=
  match maskTable buf pos with
  | .error e => .error e
  | .ok (offs, _) => readMasksFrom D buf offs

end New

/-- One iteration of `read_unit` (identical in both variants): seek to the
tile offset, consume the unknown-count prefix block, read the 8-byte tag
and size, and dispatch — "GEPJ" is read and repaired, "2GPJ" is read
verbatim, anything else yields no unit.  A non-UTF-8 tag fails
`String::from_utf8` first. -/
def readUnitAt (buf : Bytes) (offset : Nat) : Except Err (Option Unit) :=
  let p0 := seekStart buf offset
  match readU32 buf p0 with
  | .error e => .error e
  | .ok (unknown, p1) =>
    match readBytes buf p1 ((4 * unknown) % U32M) with
    | .error e => .error e
    | .ok (_, p2) =>
      match readBytes buf p2 8 with
      | .error e => .error e
      | .ok (unitHead, p3) =>
        let tagBytes := unitHead.take 4
        if validUtf8 tagBytes then
          let size := leU32 (unitHead.drop 4)
          if tagBytes = gepjTag then
            match readBytes buf p3 size with
            | .error e => .error e
            | .ok (payload, _) =>
              match jpegFix payload with
              | .error e => .error e
              | .ok fixedData =>
                .ok (some { unit_flag := tagBytes, size := size,
                            unit_data := fixedData })
          else if tagBytes = jpg2Tag then
            match readBytes buf p3 size with
            | .error e => .error e
            | .ok (payload, _) =>
              .ok (some { unit_flag := tagBytes, size := size,
                          unit_data := payload })
          else .ok none
        else .error .encodingError

/-- The loop of `read_unit` over the header's index list: recognized tiles
are appended in order, unrecognized tags append nothing. -/
def readUnits (buf : Bytes) : List Nat → Except Err (List Unit)
  | [] => .ok []
  | o :: rest =>
    match readUnitAt buf o with
    | .error e => .error e
    | .ok none => readUnits buf rest
    | .ok (some u) =>
      match readUnits buf rest with
      | .error e => .error e
      | .ok us => .ok (u :: us)

/-- `map::decode` (the variant without rendering): header, raw masks,
units, over one shared cursor. -/
def Old.decode (buf : Bytes) : Except Err Map :=
  match read_header buf with
  | .error e => .error e
  | .ok (header, p1) =>
    match Old.read_mask buf p1 with
    | .error e => .error e
    | .ok masks =>
      match readUnits buf header.map_index_list with
      | .error e => .error e
      | .ok units => .ok { map_header := header, units := units, masks := masks }

/-- `new_map::decode` (the rendering variant), parameterized by the
external decompressor. -/
def New.decode (D : Decomp) (buf : Bytes) : Except Err Map :=
  match read_header buf with
  | .error e => .error e
  | .ok (header, p1) =>
    match New.read_mask D buf p1 with
    | .error e => .error e
    | .ok masks =>
      match readUnits buf header.map_index_list with
      | .error e => .error e
      | .ok units => .ok { map_header := header, units := units, masks := masks }

/-! ### Arithmetic facts about the rounding model -/

theorem roundNE_exact (num den : Nat) (hd : 0 < den) (h : num % den = 0) :
    roundNE num den = num / den := by
  simp [roundNE, h, hd]

theorem roundNE_ge (num den : Nat) (_hd : 0 < den) :
    num / den ≤ roundNE num den := by
  simp only [roundNE]
  repeat' split
  all_goals omega

theorem roundNE_le (num den : Nat) (_hd : 0 < den) :
    roundNE num den ≤ num / den + 1 := by
  simp only [roundNE]
  repeat' split
  all_goals omega

theorem roundNE_up (num den : Nat) (_hd : 0 < den) (h : den < 2 * (num % den)) :
    roundNE num den = num / den + 1 := by
  simp only [roundNE]
  repeat' split
  all_goals omega

theorem lg2_pow_le : ∀ fuel n, 1 ≤ n → n ≤ fuel → 2 ^ lg2 fuel n ≤ n := by
  intro fuel
  induction fuel with
  | zero => intro n h1 h2; omega
  | succ f ih =>
    intro n h1 h2
    by_cases hn : n ≤ 1
    · simp [lg2, hn]
      omega
    · have hgt : 2 ≤ n := by omega
      have hlt : n / 2 < n := Nat.div_lt_self (by omega) (by omega)
      have h1' : 1 ≤ n / 2 := (Nat.le_div_iff_mul_le (by omega)).mpr (by omega)
      have hih := ih (n / 2) h1' (by omega)
      have hdm : n / 2 * 2 ≤ n := Nat.div_mul_le_self n 2
      simp only [lg2, if_neg hn]
      have hpow : 2 ^ (lg2 f (n / 2) + 1) = 2 ^ lg2 f (n / 2) * 2 := by ring
      omega

theorem log2m_pow_le (n : Nat) (h : 1 ≤ n) : 2 ^ log2m n ≤ n :=
  lg2_pow_le n n h le_rfl

theorem log2m_lt (n k : Nat) (h1 : 1 ≤ n) (h2 : n < 2 ^ k) : log2m n < k := by
  have hle := log2m_pow_le n h1
  by_contra hcon
  push_neg at hcon
  have h2k : 2 ^ k ≤ 2 ^ log2m n := Nat.pow_le_pow_right (by omega) hcon
  omega

/-- Correctness of the ceiling-of-correctly-rounded-division model against
the exact integer ceiling, in the range where the `f32` grid is fine
enough: `a` below `q · 2^k` keeps the quotient under `2^k`, and
`q < 2^(25-k)` makes the quotient's grid step smaller than `2/q`, so the
rounded quotient can never drop below an integer the true quotient
exceeds. -/
theorem f32CeilDiv_correct (q a k : Nat) (hq0 : 0 < q) (hk1 : 1 ≤ k) (hk : k ≤ 23)
    (ha : a < q * 2 ^ k) (hqk : q < 2 ^ (25 - k)) :
    f32CeilDiv q a = (a + q - 1) / q := by
  by_cases ha0 : a = 0
  · subst ha0
    have hz : (q - 1) / q = 0 := Nat.div_eq_of_lt (by omega)
    simp [f32CeilDiv]
    omega
  · by_cases hf0 : a / q = 0
    · have haq : a < q := by
        rcases Nat.lt_or_ge a q with hlg | hlg
        · exact hlg
        · exact absurd ((Nat.one_le_div_iff hq0).mpr hlg) (by omega)
      have hR : (a + q - 1) / q = 1 := by
        apply Nat.div_eq_of_lt_le
        · omega
        · have h2q : (1 + 1) * q = q + q := by ring
          omega
      simp [f32CeilDiv, ha0, hf0, hR]
    · have hf1 : 1 ≤ a / q := Nat.pos_of_ne_zero hf0
      have hfk : a / q < 2 ^ k :=
        (Nat.div_lt_iff_lt_mul hq0).mpr (by rw [Nat.mul_comm]; exact ha)
      have he : log2m (a / q) < k := log2m_lt (a / q) k hf1 hfk
      have he23 : log2m (a / q) ≤ 23 := by omega
      have hrw : f32CeilDiv q a =
          (roundNE (a * 2 ^ (23 - log2m (a / q))) q +
            (2 ^ (23 - log2m (a / q)) - 1)) / 2 ^ (23 - log2m (a / q)) := by
        simp only [f32CeilDiv]
        rw [if_neg ha0, if_neg hf0, if_pos he23]
      set f := a / q with hf
      set e := log2m f with heq
      set s := 23 - e with hs
      have hq2 : q < 2 ^ (s + 1) := by
        have h1 : 25 - k ≤ s + 1 := by omega
        exact lt_of_lt_of_le hqk (Nat.pow_le_pow_right (by omega) h1)
      set r := a % q with hr
      have hdm : q * f + r = a := Nat.div_add_mod a q
      have hrlt : r < q := Nat.mod_lt a hq0
      have h2s : 1 ≤ 2 ^ s := Nat.one_le_two_pow
      have hsplit : a * 2 ^ s = q * (f * 2 ^ s) + r * 2 ^ s := by
        rw [← hdm]; ring
      have hmulc : f * q = q * f := Nat.mul_comm f q
      by_cases hr0 : r = 0
      · have hnum : (a * 2 ^ s) % q = 0 := by
          rw [hsplit, hr0, Nat.zero_mul, Nat.add_zero]
          exact Nat.mul_mod_right q _
        have hm : roundNE (a * 2 ^ s) q = f * 2 ^ s := by
          rw [roundNE_exact _ _ hq0 hnum, hsplit, hr0, Nat.zero_mul, Nat.add_zero]
          exact Nat.mul_div_cancel_left _ hq0
        have e1 : (f + 1) * 2 ^ s = f * 2 ^ s + 2 ^ s := Nat.succ_mul f (2 ^ s)
        have hL : (f * 2 ^ s + (2 ^ s - 1)) / 2 ^ s = f :=
          Nat.div_eq_of_lt_le (Nat.le_add_right _ _) (by omega)
        have e2 : (f + 1) * q = f * q + q := Nat.succ_mul f q
        have hR : (a + q - 1) / q = f :=
          Nat.div_eq_of_lt_le (by omega) (by omega)
        rw [hrw, hm, hL, hR]
      · have hnum_div : (a * 2 ^ s) / q = f * 2 ^ s + (r * 2 ^ s) / q := by
          rw [hsplit, Nat.mul_add_div hq0]
        have hnum_mod : (a * 2 ^ s) % q = (r * 2 ^ s) % q := by
          rw [hsplit, Nat.mul_add_mod]
        have hub : (r * 2 ^ s) / q < 2 ^ s := by
          apply (Nat.div_lt_iff_lt_mul hq0).mpr
          have h1 : r * 2 ^ s < q * 2 ^ s :=
            mul_lt_mul_of_pos_right hrlt (by omega)
          have h2 : q * 2 ^ s = 2 ^ s * q := Nat.mul_comm _ _
          omega
        have hge := roundNE_ge (a * 2 ^ s) q hq0
        have hle := roundNE_le (a * 2 ^ s) q hq0
        have hmu : roundNE (a * 2 ^ s) q ≤ (f + 1) * 2 ^ s := by
          have e1 : (f + 1) * 2 ^ s = f * 2 ^ s + 2 ^ s := Nat.succ_mul f (2 ^ s)
          omega
        have hml : f * 2 ^ s + 1 ≤ roundNE (a * 2 ^ s) q := by
          by_cases hc : q ≤ r * 2 ^ s
          · have hd1 : 1 ≤ (r * 2 ^ s) / q := (Nat.one_le_div_iff hq0).mpr hc
            omega
          · push_neg at hc
            have hmod : (r * 2 ^ s) % q = r * 2 ^ s := Nat.mod_eq_of_lt hc
            have hup : roundNE (a * 2 ^ s) q = (a * 2 ^ s) / q + 1 := by
              apply roundNE_up _ _ hq0
              rw [hnum_mod, hmod]
              have hps : 2 ^ s ≤ r * 2 ^ s := Nat.le_mul_of_pos_left _ (by omega)
              have hpp : 2 ^ (s + 1) = 2 * 2 ^ s := by ring
              omega
            have hd0 : (r * 2 ^ s) / q = 0 := Nat.div_eq_of_lt hc
            omega
        have e1 : (f + 1) * 2 ^ s = f * 2 ^ s + 2 ^ s := Nat.succ_mul f (2 ^ s)
        have e2 : (f + 1 + 1) * 2 ^ s = f * 2 ^ s + 2 ^ s + 2 ^ s := by ring
        have hL : (roundNE (a * 2 ^ s) q + (2 ^ s - 1)) / 2 ^ s = f + 1 :=
          Nat.div_eq_of_lt_le (by omega) (by omega)
        have e3 : (f + 1) * q = f * q + q := Nat.succ_mul f q
        have e4 : (f + 1 + 1) * q = f * q + q + q := by ring
        have hR : (a + q - 1) / q = f + 1 :=
          Nat.div_eq_of_lt_le (by omega) (by omega)
        rw [hrw, hL, hR]

theorem toF32_exact (n : Nat) (h : n ≤ 2 ^ 24) : toF32 n = n := by
  unfold toF32
  rw [if_pos h]

/-- For heights up to `2^24` the `f32` row computation is the exact
ceiling of `height / 240`. -/
theorem rowsOf_eq (h : Nat) (hh : h ≤ 2 ^ 24) : rowsOf h = (h + 239) / 240 := by
  rw [rowsOf, toF32_exact h hh]
  have hc := f32CeilDiv_correct 240 h 17 (by omega) (by omega) (by omega)
    (by omega) (by omega)
  have : h + 240 - 1 = h + 239 := by omega
  rw [hc, this]

/-- For widths up to `2^24` the `f32` column computation is the exact
ceiling of `width / 320`. -/
theorem colsOf_eq (w : Nat) (hw : w ≤ 2 ^ 24) : colsOf w = (w + 319) / 320 := by
  rw [colsOf, toF32_exact w hw]
  have hc := f32CeilDiv_correct 320 w 16 (by omega) (by omega) (by omega)
    (by omega) (by omega)
  have : w + 320 - 1 = w + 319 := by omega
  rw [hc, this]

/-! ### Reader lemmas -/

instance {ε α : Type} [DecidableEq ε] [DecidableEq α] : DecidableEq (Except ε α)
  | .error a, .error b =>
    if h : a = b then .isTrue (by rw [h])
    else .isFalse (by intro hh; cases hh; exact h rfl)
  | .error _, .ok _ => .isFalse (by intro hh; cases hh)
  | .ok _, .error _ => .isFalse (by intro hh; cases hh)
  | .ok a, .ok b =>
    if h : a = b then .isTrue (by rw [h])
    else .isFalse (by intro hh; cases hh; exact h rfl)

theorem slice_length (buf : Bytes) (p n : Nat) (h : p + n ≤ buf.length) :
    (slice buf p n).length = n := by
  simp only [slice, List.length_take, List.length_drop]
  omega

theorem readBytes_ok (buf : Bytes) (p n : Nat) (h : p + n ≤ buf.length) :
    readBytes buf p n = .ok (slice buf p n, p + n) := by
  simp [readBytes, h]

theorem readU32_ok (buf : Bytes) (p : Nat) (h : p + 4 ≤ buf.length) :
    readU32 buf p = .ok (leU32 (slice buf p 4), p + 4) := by
  simp [readU32, readBytes_ok buf p 4 h]

theorem readBytes_inv (buf : Bytes) (p n : Nat) (bs : Bytes) (p2 : Nat)
    (h : readBytes buf p n = .ok (bs, p2)) :
    bs = slice buf p n ∧ p2 = p + n ∧ bs.length = n := by
  unfold readBytes at h
  split at h
  · cases h
    exact ⟨rfl, rfl, slice_length _ _ _ (by assumption)⟩
  · cases h

theorem chunksU32_length : ∀ (bs : Bytes) (l : List Nat),
    chunksU32 bs = .ok l → 4 * l.length = bs.length
  | [], l, h => by
    simp only [chunksU32] at h
    cases h
    rfl
  | a :: b :: c :: d :: rest, l, h => by
    simp only [chunksU32] at h
    cases hr : chunksU32 rest with
    | error e => rw [hr] at h; cases h
    | ok l2 =>
      rw [hr] at h
      cases h
      have := chunksU32_length rest l2 hr
      simp only [List.length_cons, List.length]
      omega
  | [a], l, h => by simp only [chunksU32] at h; cases h
  | [a, b], l, h => by simp only [chunksU32] at h; cases h
  | [a, b, c], l, h => by simp only [chunksU32] at h; cases h

/-- Inversion of `read_header`: the geometry of every successfully parsed
header is what the `f32` model computes, and the index list covers the
wrapped index byte count. -/
theorem read_header_fields (buf : Bytes) (hdr : MapHeader) (p : Nat)
    (hok : read_header buf = .ok (hdr, p)) :
    hdr.rows = rowsOf hdr.height ∧ hdr.cols = colsOf hdr.width ∧
    hdr.index_size = (hdr.rows * hdr.cols) % U32M ∧
    4 * hdr.map_index_list.length = (hdr.index_size * 4) % U32M := by
  unfold read_header at hok
  cases h1 : readBytes buf 0 4 with
  | error e => rw [h1] at hok; cases hok
  | ok v1 =>
    rw [h1] at hok
    obtain ⟨flagBytes, p1⟩ := v1
    dsimp only at hok
    by_cases h2 : validUtf8 flagBytes
    · rw [if_pos h2] at hok
      by_cases h3 : flagBytes = magicBytes
      · rw [if_pos h3] at hok
        cases h4 : readU32 buf p1 with
        | error e => rw [h4] at hok; cases hok
        | ok v2 =>
          rw [h4] at hok
          obtain ⟨width, p2⟩ := v2
          dsimp only at hok
          cases h5 : readU32 buf p2 with
          | error e => rw [h5] at hok; cases hok
          | ok v3 =>
            rw [h5] at hok
            obtain ⟨height, p3⟩ := v3
            dsimp only at hok
            cases h6 : readBytes buf p3 (rowsOf height * colsOf width % U32M * 4 % U32M) with
            | error e => rw [h6] at hok; cases hok
            | ok v4 =>
              rw [h6] at hok
              obtain ⟨indexBytes, p4⟩ := v4
              dsimp only at hok
              cases h7 : chunksU32 indexBytes with
              | error e => rw [h7] at hok; cases hok
              | ok lst =>
                rw [h7] at hok
                dsimp only at hok
                cases hok
                obtain ⟨_, _, hlen⟩ := readBytes_inv _ _ _ _ _ h6
                have hcl := chunksU32_length _ _ h7
                exact ⟨rfl, rfl, rfl, by rw [hcl, hlen]⟩
      · rw [if_neg h3] at hok; cases hok
    · rw [if_neg h2] at hok; cases hok

/-! ### C4: grid geometry -/

/-- C4 counterexample input: a 12-byte archive, magic then width 0 and
height 16777441 (little-endian `E1 00 00 01`). -/
def c4buf : Bytes := magicBytes ++ [0, 0, 0, 0] ++ [0xE1, 0x00, 0x00, 0x01]

/-- The header that `read_header` produces on `c4buf`. -/
def c4hdr : MapHeader :=
  { flag := 1295068720, width := 0, height := 16777441,
    map_index_list := [], rows := 69906, cols := 0, index_size := 0 }

/-- C4 (counterexample): the header of `c4buf` parses successfully with
height 16777441, but its row count is 69906 while the exact integer
ceiling of 16777441 / 240 is 69907 — the `f32` conversion rounds the
height down to 16777440 (ties to even) before dividing, so `rows` is not
the exact ceiling for every parsed header. -/
theorem read_header_rows_not_exact_ceiling :
    read_header c4buf = .ok (c4hdr, 12) ∧
    c4hdr.rows = 69906 ∧ (c4hdr.height + 239) / 240 = 69907 ∧
    c4hdr.rows ≠ (c4hdr.height + 239) / 240 := by
  refine ⟨by decide, rfl, by decide, by decide⟩

/-- C4 (amended): for every successfully parsed header whose height and
width are at most `2^24` (where `f32` represents them exactly) and whose
`rows * cols` stays below `2^30` (so the `u32` index byte count does not
wrap), `rows` and `cols` are the exact integer ceilings of height/240 and
width/320, and the index list length equals `rows * cols`. -/
theorem read_header_geometry (buf : Bytes) (hdr : MapHeader) (p : Nat)
    (hok : read_header buf = .ok (hdr, p))
    (hh : hdr.height ≤ 2 ^ 24) (hw : hdr.width ≤ 2 ^ 24)
    (hrc : hdr.rows * hdr.cols < 2 ^ 30) :
    hdr.rows = (hdr.height + 239) / 240 ∧
    hdr.cols = (hdr.width + 319) / 320 ∧
    hdr.map_index_list.length = hdr.rows * hdr.cols := by
  obtain ⟨h1, h2, h3, h4⟩ := read_header_fields buf hdr p hok
  refine ⟨h1.trans (rowsOf_eq _ hh), h2.trans (colsOf_eq _ hw), ?_⟩
  have hU : (2 : Nat) ^ 30 * 4 = U32M := by norm_num [U32M]
  have h30 : (2 : Nat) ^ 30 < U32M := by norm_num [U32M]
  have hm1 : (hdr.rows * hdr.cols) % U32M = hdr.rows * hdr.cols :=
    Nat.mod_eq_of_lt (by omega)
  have hm2 : (hdr.index_size * 4) % U32M = hdr.index_size * 4 := by
    rw [h3, hm1]
    exact Nat.mod_eq_of_lt (by omega)
  rw [hm2, h3, hm1] at h4
  omega

/-- Witness for the amended C4 on a concrete 16-byte archive (320×240, a
single tile offset). -/
def c4wbuf : Bytes := magicBytes ++ [0x40, 0x01, 0, 0] ++ [0xF0, 0, 0, 0] ++ [0, 0, 0, 0]

/-- The header that `read_header` produces on `c4wbuf`. -/
def c4whdr : MapHeader :=
  { flag := 1295068720, width := 320, height := 240,
    map_index_list := [0], rows := 1, cols := 1, index_size := 1 }

/-- Witness instantiating `read_header_geometry` at `c4wbuf`. -/
theorem read_header_geometry_witness :
    c4whdr.rows = (c4whdr.height + 239) / 240 ∧
    c4whdr.cols = (c4whdr.width + 319) / 320 ∧
    c4whdr.map_index_list.length = c4whdr.rows * c4whdr.cols :=
  read_header_geometry c4wbuf c4whdr 16 (by decide) (by decide) (by decide)
    (by decide)

/-! ### C1 and C9: the JPEG repair loop -/

/-- C1 failing input: `FF DA`, two header-length bytes, a nine-byte scan
header body, one literal `FF` of scan data (not followed by `D9`), and the
terminating `FF D9` — 16 bytes, exactly the synthetic shape of spec §8
with N = 1. -/
def c1Input : Bytes :=
  [0xFF, 0xDA, 0x00, 0x00, 0, 0, 0, 0, 0, 0, 0, 0, 0, 0xFF, 0xFF, 0xD9]

/-- What the repair loop actually produces on `c1Input`: the length byte
is forced to `0x0C` and `00 3F 00` is spliced in, but the literal scan
`FF` is never visited — the loop's range was fixed at the original length
16 and the three inserted header bytes consume the final three indices —
so no stuffing byte is inserted. -/
def c1Output : Bytes :=
  [0xFF, 0xDA, 0x00, 0x0C, 0, 0, 0, 0, 0, 0, 0, 0, 0, 0x00, 0x3F, 0x00,
   0xFF, 0xFF, 0xD9]

/-- C1: the repair at the failing input.  The claim (and spec §8) demand
exactly one `0x00` stuffed after the single literal scan `FF` and output
length 16 + 3 + 1 = 20; the code returns `c1Output`, which still contains
the unstuffed `FF FF` pair and has length 19 = 16 + 3. -/
theorem jpeg_repair_failing_input :
    jpegFix c1Input = .ok c1Output ∧
    c1Output.length = c1Input.length + 3 ∧
    c1Output.length ≠ c1Input.length + 3 + 1 :=
  ⟨by decide, by decide, by decide⟩

theorem jpegFixGo_search (data : Bytes)
    (hnoda : ∀ j, ¬(data.get? j = some 0xFF ∧ data.get? (j + 1) = some 0xDA)) :
    ∀ fuel index, fuel + index = data.length → 1 ≤ fuel →
      data.get? (data.length - 1) = some 0xFF →
      jpegFixGo fuel index data false = .error .panicked := by
  intro fuel
  induction fuel with
  | zero => intro index hsum h1 hlast; omega
  | succ f ih =>
    intro index hsum h1 hlast
    by_cases hf : f = 0
    · subst hf
      have hidx : index = data.length - 1 := by omega
      rw [hidx]
      simp only [jpegFixGo, hlast, if_true]
      rw [List.get?_eq_none.mpr (by omega)]
    · cases hget : data.get? index with
      | none =>
        exfalso
        have := List.get?_eq_none.mp hget
        omega
      | some b =>
        simp only [jpegFixGo, hget]
        by_cases hb : b = 0xFF
        · rw [if_pos hb]
          cases hget1 : data.get? (index + 1) with
          | none =>
            exfalso
            have := List.get?_eq_none.mp hget1
            omega
          | some b1 =>
            dsimp only
            have hb1 : b1 ≠ 0xDA := by
              intro hda
              exact hnoda index ⟨by rw [hget, hb], by rw [hget1, hda]⟩
            rw [if_neg hb1]
            exact ih (index + 1) (by omega) (by omega) hlast
        · rw [if_neg hb]
          exact ih (index + 1) (by omega) (by omega) hlast

/-- C9: the repair loop reads `unit_data[index + 1]` without a bounds
check while searching for the `FF DA` marker; on any payload whose last
byte is `0xFF` and that contains no `FF DA` pair, the read at the final
loop index is out of bounds (`Err.panicked` models the Rust indexing
panic), so the repair is not total over payload contents. -/
theorem jpeg_repair_not_total (data : Bytes)
    (hlast : data.get? (data.length - 1) = some 0xFF)
    (hnoda : ∀ j, ¬(data.get? j = some 0xFF ∧ data.get? (j + 1) = some 0xDA)) :
    jpegFix data = .error .panicked := by
  have hne : 1 ≤ data.length := by
    rcases Nat.eq_zero_or_pos data.length with h0 | h1
    · rw [List.get?_eq_none.mpr (by omega)] at hlast; cases hlast
    · exact h1
  exact jpegFixGo_search data hnoda data.length 0 (by omega) hne hlast

/-- Witness for C9: the one-byte payload `FF` panics the repair. -/
theorem jpeg_repair_not_total_witness : jpegFix [0xFF] = .error .panicked :=
  jpeg_repair_not_total [0xFF] (by decide)
    (by
      intro j h
      have h2 := h.2
      rw [List.get?_eq_none.mpr (by simp)] at h2
      cases h2)

/-! ### C2: mask buffer sizing and bit-plane unpacking -/

theorem optMapM_length (f : Nat → Option Nat) :
    ∀ (xs ys : List Nat), optMapM f xs = some ys → ys.length = xs.length
  | [], ys, h => by
    simp only [optMapM] at h
    cases h
    rfl
  | a :: xs, ys, h => by
    simp only [optMapM] at h
    cases hfa : f a with
    | none => rw [hfa] at h; cases h
    | some y =>
      rw [hfa] at h
      cases hxs : optMapM f xs with
      | none => rw [hxs] at h; cases h
      | some ys2 =>
        rw [hxs] at h
        dsimp only at h
        cases h
        simp only [List.length_cons]
        rw [optMapM_length f xs ys2 hxs]

theorem optMapM_get (f : Nat → Option Nat) :
    ∀ (xs ys : List Nat), optMapM f xs = some ys →
      ∀ j x, xs.get? j = some x → ys.get? j = f x
  | [], ys, h, j, x, hx => by
    rw [List.get?_eq_none.mpr (by simp)] at hx
    cases hx
  | a :: xs, ys, h, j, x, hx => by
    simp only [optMapM] at h
    cases hfa : f a with
    | none => rw [hfa] at h; cases h
    | some y =>
      rw [hfa] at h
      cases hxs : optMapM f xs with
      | none => rw [hxs] at h; cases h
      | some ys2 =>
        rw [hxs] at h
        dsimp only at h
        cases h
        cases j with
        | zero =>
          simp only [List.get?_cons_zero] at hx
          cases hx
          simp only [List.get?_cons_zero]
          exact hfa.symm
        | succ j2 =>
          simp only [List.get?_cons_succ] at hx ⊢
          exact optMapM_get f xs ys2 hxs j2 x hx

theorem align4Spec_ge (w : Nat) : w ≤ align4Spec w := by
  unfold align4Spec
  rw [Nat.shiftLeft_eq, Nat.shiftRight_eq_div_pow]
  have h4 : (2 : Nat) ^ 2 = 4 := rfl
  have h1 : (2 : Nat) ^ 1 = 2 := rfl
  rw [h4]
  have hdm := Nat.div_add_mod w 4
  split
  · have e : (w / 4 + 1) * 2 ^ 2 = w / 4 * 4 + 4 := by ring
    omega
  · have e : (w / 4 + 0) * 2 ^ 2 = w / 4 * 4 := by ring
    omega

theorem aiginw_eq (w : Nat) (h : align4Spec w < U32M) : aiginw w = align4Spec w :=
  Nat.mod_eq_of_lt h

/-- C2 counterexample record: a 20-byte mask record at offset 0 with
x = y = 0, width = 2^31 (little-endian `00 00 00 80`), height = 4 and
compressed size 0. -/
def c2rec : Bytes :=
  [0, 0, 0, 0] ++ [0, 0, 0, 0] ++ [0, 0, 0, 0x80] ++ [4, 0, 0, 0] ++
    [0, 0, 0, 0]

/-- A decompressor that reports success only when handed an output buffer
of exactly 2^31 bytes — the size the claim's plain formula demands for
the record `c2rec`. -/
def bigOnlyDecomp : Decomp := fun _ len =>
  if len = 2 ^ 31 then some (List.replicate len 7) else none

/-- C2 (counterexample): for a mask record with width 2^31 and height 4
the code sizes the decompression buffer in `u32`: `(aiginw * height) >> 2`
wraps to 0, while the claim's plain formula `(align4(w) * h) >> 2` gives
2^31 — and a decompressor that succeeds only on a 2^31-byte output buffer
is reported as failed on this record, because the code hands it a 0-byte
buffer. -/
theorem mask_buffer_size_counterexample :
    maskOutLen (2 ^ 31) 4 = 0 ∧
    (align4Spec (2 ^ 31) * 4) >>> 2 = 2 ^ 31 ∧
    maskOutLen (2 ^ 31) 4 ≠ (align4Spec (2 ^ 31) * 4) >>> 2 ∧
    New.readMaskAt bigOnlyDecomp c2rec 0 = .error .maskDecompressionFailed :=
  ⟨by decide, by decide, by decide, by decide⟩

/-- C2 (amended): in the region where the `u32` arithmetic does not wrap
— `align4 width < 2^32`, `align4 width * height < 2^32` and every bit
index below `2^32` — the claim's plain formulas hold of the code:
(i) `maskOutLen`, the length of the buffer that `New.readMaskAt`
hands the decompressor, is exactly `(align4 width * height) >> 2`;
(ii) `align4` on 0,1,2,3,4,5,8,9 gives 0,4,4,4,4,8,8,12; (iii) every pixel
`(k, i)` of a successful unpack is derived from bit index
`(k * align4 width + i) << 1`: byte `bitIndex >> 3` of the buffer, 2-bit
field at offset `bitIndex % 8`, value `0xF0` when the field is 3 and `0`
otherwise.  (Outside this region the wrap makes code and formula diverge,
see the counterexample above.) -/
theorem mask_buffer_and_unpack (w h : Nat)
    (hal : align4Spec w < U32M) (hwh : align4Spec w * h < U32M)
    (hwh2 : align4Spec w * h * 2 ≤ U32M) :
    maskOutLen w h = (align4Spec w * h) >>> 2 ∧
    [0, 1, 2, 3, 4, 5, 8, 9].map align4Spec = [0, 4, 4, 4, 4, 8, 8, 12] ∧
    (∀ (out md : Bytes) (k i : Nat), k < h → i < w →
      unpack out (aiginw w) w h = .ok md →
      ∃ b, out.get? (((k * align4Spec w + i) * 2) >>> 3) = some b ∧
        md.get? (k * w + i) =
          some (if (b >>> ((k * align4Spec w + i) * 2 % 8)) &&& 3 = 3
                then 0xF0 else 0)) := by
  refine ⟨?_, by decide, ?_⟩
  · unfold maskOutLen
    rw [aiginw_eq w hal, Nat.mod_eq_of_lt hwh]
  · intro out md k i hk hi hun
    have hw : 0 < w := by omega
    have hA := align4Spec_ge w
    have hkA : (k + 1) * align4Spec w ≤ h * align4Spec w :=
      Nat.mul_le_mul_right _ (by omega)
    have hkA2 : (k + 1) * align4Spec w = k * align4Spec w + align4Spec w :=
      Nat.succ_mul _ _
    have hhA : h * align4Spec w = align4Spec w * h := Nat.mul_comm _ _
    have hbound : k * align4Spec w + i < align4Spec w * h := by omega
    have hwlt : w * h ≤ align4Spec w * h := Nat.mul_le_mul_right _ hA
    unfold unpack at hun
    rw [if_pos (by omega)] at hun
    cases hmp : optMapM (unpackPixel out (aiginw w) w) (List.range (w * h)) with
    | none => rw [hmp] at hun; cases hun
    | some l =>
      rw [hmp] at hun
      cases hun
      have hp : k * w + i < w * h := by
        have h1 : (k + 1) * w ≤ h * w := Nat.mul_le_mul_right _ (by omega)
        have h2 : (k + 1) * w = k * w + w := Nat.succ_mul _ _
        have h3 : h * w = w * h := Nat.mul_comm _ _
        omega
      have hrange : (List.range (w * h)).get? (k * w + i) = some (k * w + i) :=
        List.get?_range hp
      have hmd := optMapM_get _ _ _ hmp (k * w + i) (k * w + i) hrange
      have hdiv : (k * w + i) / w = k := by
        have e : k * w + i = i + k * w := by ring
        rw [e, Nat.add_mul_div_right i k hw, Nat.div_eq_of_lt hi]
        omega
      have hmod : (k * w + i) % w = i := by
        have e : k * w + i = i + k * w := by ring
        rw [e, Nat.add_mul_mod_self_right]
        exact Nat.mod_eq_of_lt hi
      have hidx : (k * aiginw w % U32M + i) % U32M * 2 % U32M =
          (k * align4Spec w + i) * 2 := by
        rw [aiginw_eq w hal]
        have h1 : k * align4Spec w % U32M = k * align4Spec w :=
          Nat.mod_eq_of_lt (by omega)
        rw [h1]
        have h2 : (k * align4Spec w + i) % U32M = k * align4Spec w + i :=
          Nat.mod_eq_of_lt (by omega)
        rw [h2]
        exact Nat.mod_eq_of_lt (by omega)
      unfold unpackPixel at hmd
      dsimp only at hmd
      rw [hdiv, hmod, hidx] at hmd
      cases hb : out.get? (((k * align4Spec w + i) * 2) >>> 3) with
      | none =>
        exfalso
        rw [hb] at hmd
        have hlen := optMapM_length _ _ _ hmp
        rw [List.length_range] at hlen
        have : md.get? (k * w + i) ≠ none := by
          rw [Ne, List.get?_eq_none]
          omega
        exact this hmd
      | some b =>
        rw [hb] at hmd
        exact ⟨b, rfl, hmd⟩

/-- Witness for C2 at width 1, height 1, decompressed buffer `[3]`. -/
theorem mask_buffer_and_unpack_witness :
    maskOutLen 1 1 = (align4Spec 1 * 1) >>> 2 ∧
    [0, 1, 2, 3, 4, 5, 8, 9].map align4Spec = [0, 4, 4, 4, 4, 8, 8, 12] ∧
    (∃ b, ([3] : Bytes).get? (((0 * align4Spec 1 + 0) * 2) >>> 3) = some b ∧
      ([0xF0] : Bytes).get? (0 * 1 + 0) =
        some (if (b >>> ((0 * align4Spec 1 + 0) * 2 % 8)) &&& 3 = 3
              then 0xF0 else 0)) := by
  have h := mask_buffer_and_unpack 1 1 (by decide) (by decide) (by decide)
  exact ⟨h.1, h.2.1, h.2.2 [3] [0xF0] 0 0 (by decide) (by decide) (by decide)⟩

/-! ### C3: magic-byte handling -/

/-- A decompressor that always reports a non-OK status, used to
instantiate the decoders at concrete inputs. -/
def noDecomp : Decomp := fun _ _ => none

/-- C3 counterexample input: four `0xFF` bytes — not "0.1M", but also not
valid UTF-8. -/
def c3buf : Bytes := [0xFF, 0xFF, 0xFF, 0xFF]

/-- C3 (counterexample): a buffer whose first four bytes are not "0.1M"
but are also not valid UTF-8 fails `String::from_utf8` first, so the
decode fails with `EncodingError`, not `InvalidFormat`. -/
theorem magic_mismatch_counterexample :
    c3buf ≠ magicBytes ∧
    New.decode noDecomp c3buf = .error .encodingError ∧
    New.decode noDecomp c3buf ≠ .error .invalidFormat :=
  ⟨by decide, by decide, by decide⟩

/-- C3 (amended): decoding any buffer of at least 4 bytes whose first
four bytes are valid UTF-8 and differ from "0.1M" fails with
`InvalidFormat`, in both variants, for every decompressor, regardless of
the remaining content. -/
theorem magic_mismatch (D : Decomp) (buf : Bytes) (h4 : 4 ≤ buf.length)
    (hutf : validUtf8 (buf.take 4) = true) (hne : buf.take 4 ≠ magicBytes) :
    New.decode D buf = .error .invalidFormat ∧
    Old.decode buf = .error .invalidFormat := by
  have hrb : readBytes buf 0 4 = .ok (buf.take 4, 4) := by
    have h := readBytes_ok buf 0 4 (by omega)
    simpa [slice] using h
  have hhdr : read_header buf = .error .invalidFormat := by
    unfold read_header
    rw [hrb]
    dsimp only
    rw [if_pos hutf, if_neg hne]
  constructor
  · unfold New.decode
    rw [hhdr]
  · unfold Old.decode
    rw [hhdr]

/-- Witness for the amended C3: the 4-byte buffer "1.1M". -/
theorem magic_mismatch_witness :
    New.decode noDecomp [0x31, 0x2E, 0x31, 0x4D] = .error .invalidFormat ∧
    Old.decode [0x31, 0x2E, 0x31, 0x4D] = .error .invalidFormat :=
  magic_mismatch noDecomp [0x31, 0x2E, 0x31, 0x4D] (by decide) (by decide)
    (by decide)

/-! ### C5: out-of-range seeks -/

/-- C5 counterexample input: a valid empty header (width = height = 0)
followed by a one-entry mask offset table pointing at byte 9999, far
past the end of the 24-byte archive. -/
def c5buf : Bytes :=
  magicBytes ++ [0, 0, 0, 0] ++ [0, 0, 0, 0] ++ [0, 0, 0, 0] ++
    [1, 0, 0, 0] ++ [0x0F, 0x27, 0, 0]

/-- C5 (counterexample): the mask offset 9999 exceeds the buffer length,
yet the decode fails with `Truncated` at the next fixed-size read, not
`OutOfRange` — the seek itself succeeded. -/
theorem seek_out_of_range_counterexample :
    New.decode noDecomp c5buf = .error .truncated ∧
    New.decode noDecomp c5buf ≠ .error .outOfRange :=
  ⟨by decide, by decide⟩

/-- C5 (amended): `SeekFrom::Start` always succeeds, even past the end of
the buffer; a mask-record offset or a tile offset beyond the buffer
length makes the decode fail with `Truncated` at the next fixed-size
read, never with `OutOfRange` at the seek. -/
theorem seek_past_end (D : Decomp) (buf : Bytes) (o : Nat) (rest : List Nat)
    (o2 : Nat) (h1 : buf.length < o) (h2 : buf.length < o2) :
    seekStart buf o = o ∧
    New.readMasksFrom D buf (o :: rest) = .error .truncated ∧
    readUnitAt buf o2 = .error .truncated := by
  have hr : readU32 buf o = .error .truncated := by
    unfold readU32 readBytes
    rw [if_neg (by omega)]
  have hr2 : readU32 buf o2 = .error .truncated := by
    unfold readU32 readBytes
    rw [if_neg (by omega)]
  have hm : New.readMaskAt D buf o = .error .truncated := by
    unfold New.readMaskAt seekStart
    dsimp only
    rw [hr]
  refine ⟨rfl, ?_, ?_⟩
  · simp only [New.readMasksFrom, hm]
  · unfold readUnitAt seekStart
    dsimp only
    rw [hr2]

/-- Witness for the amended C5: offset 1 into the empty buffer. -/
theorem seek_past_end_witness :
    seekStart [] 1 = 1 ∧
    New.readMasksFrom noDecomp [] [1] = .error .truncated ∧
    readUnitAt [] 1 = .error .truncated :=
  seek_past_end noDecomp [] 1 [] 1 (by decide) (by decide)

/-! ### C7 and C8: tile dispatch -/

theorem slice_take_four (buf : Bytes) (p : Nat) :
    (slice buf p 8).take 4 = slice buf p 4 := by
  simp [slice, List.take_take]

theorem slice_drop_four (buf : Bytes) (p : Nat) :
    (slice buf p 8).drop 4 = slice buf (p + 4) 4 := by
  simp only [slice, List.drop_take, List.drop_drop]

/-- C7: a tile record whose 4-byte tag is "2GPJ" yields a unit whose
payload is the declared-size slice of the archive, byte for byte — no
repair or any other transformation is applied to it. -/
theorem jpg2_tile_verbatim (buf : Bytes) (o u s : Nat)
    (hu : o + 4 ≤ buf.length) (hueq : u = leU32 (slice buf o 4))
    (hsk : o + 4 + 4 * u % U32M + 8 ≤ buf.length)
    (htag : slice buf (o + 4 + 4 * u % U32M) 4 = jpg2Tag)
    (hseq : s = leU32 (slice buf (o + 4 + 4 * u % U32M + 4) 4))
    (hpay : o + 4 + 4 * u % U32M + 8 + s ≤ buf.length) :
    readUnitAt buf o = .ok (some
      { unit_flag := jpg2Tag, size := s,
        unit_data := slice buf (o + 4 + 4 * u % U32M + 8) s }) := by
  subst hueq
  subst hseq
  unfold readUnitAt seekStart
  dsimp only
  rw [readU32_ok buf o hu]
  dsimp only
  rw [readBytes_ok buf (o + 4) (4 * leU32 (slice buf o 4) % U32M) (by omega)]
  dsimp only
  rw [readBytes_ok buf (o + 4 + 4 * leU32 (slice buf o 4) % U32M) 8 (by omega)]
  dsimp only
  rw [slice_take_four, htag]
  rw [if_pos (by decide), if_neg (by decide), if_pos rfl]
  rw [slice_drop_four]
  rw [readBytes_ok buf (o + 4 + 4 * leU32 (slice buf o 4) % U32M + 8) _ (by omega)]

/-- Witness for C7: a 14-byte record at offset 0, tag "2GPJ", size 2,
payload `[9, 9]`. -/
theorem jpg2_tile_verbatim_witness :
    readUnitAt [0, 0, 0, 0, 0x32, 0x47, 0x50, 0x4A, 2, 0, 0, 0, 9, 9] 0 =
      .ok (some { unit_flag := jpg2Tag, size := 2, unit_data := [9, 9] }) := by
  have h := jpg2_tile_verbatim [0, 0, 0, 0, 0x32, 0x47, 0x50, 0x4A, 2, 0, 0, 0, 9, 9]
    0 0 2 (by decide) (by decide) (by decide) (by decide) (by decide) (by decide)
  exact h.trans (by decide)

/-- C8 (amended): a tile whose 4-byte tag is valid UTF-8 but neither
"GEPJ" nor "2GPJ" is a skip: nothing is appended for its index position
and the unit loop continues over the remaining offsets without error. -/
theorem unknown_tag_skipped (buf : Bytes) (o u : Nat)
    (hu : o + 4 ≤ buf.length) (hueq : u = leU32 (slice buf o 4))
    (hsk : o + 4 + 4 * u % U32M + 8 ≤ buf.length)
    (hutf : validUtf8 (slice buf (o + 4 + 4 * u % U32M) 4) = true)
    (hne1 : slice buf (o + 4 + 4 * u % U32M) 4 ≠ gepjTag)
    (hne2 : slice buf (o + 4 + 4 * u % U32M) 4 ≠ jpg2Tag) :
    readUnitAt buf o = .ok none ∧
    ∀ rest, readUnits buf (o :: rest) = readUnits buf rest := by
  have h1 : readUnitAt buf o = .ok none := by
    subst hueq
    unfold readUnitAt seekStart
    dsimp only
    rw [readU32_ok buf o hu]
    dsimp only
    rw [readBytes_ok buf (o + 4) (4 * leU32 (slice buf o 4) % U32M) (by omega)]
    dsimp only
    rw [readBytes_ok buf (o + 4 + 4 * leU32 (slice buf o 4) % U32M) 8 (by omega)]
    dsimp only
    rw [slice_take_four]
    rw [if_pos hutf, if_neg hne1, if_neg hne2]
  refine ⟨h1, fun rest => ?_⟩
  simp only [readUnits, h1]

/-- C8 counterexample input: a one-tile archive whose tile tag is four
`0xFF` bytes. -/
def c8buf : Bytes :=
  magicBytes ++ [0x40, 0x01, 0, 0] ++ [0xF0, 0, 0, 0] ++ [24, 0, 0, 0] ++
    [0, 0, 0, 0] ++ [0, 0, 0, 0] ++ [0, 0, 0, 0] ++
    [0xFF, 0xFF, 0xFF, 0xFF, 0, 0, 0, 0]

/-- C8 (counterexample): the tile tag `FF FF FF FF` is neither "GEPJ" nor
"2GPJ", yet the decode does not skip it — it fails with `EncodingError`,
because `String::from_utf8` rejects the tag before any comparison. -/
theorem unknown_tag_counterexample :
    slice c8buf 28 4 ≠ gepjTag ∧ slice c8buf 28 4 ≠ jpg2Tag ∧
    New.decode noDecomp c8buf = .error .encodingError :=
  ⟨by decide, by decide, by decide⟩

/-- Witness for the amended C8: tag "XXXX" at offset 0 is skipped. -/
theorem unknown_tag_skipped_witness :
    readUnitAt [0, 0, 0, 0, 0x58, 0x58, 0x58, 0x58, 0, 0, 0, 0] 0 = .ok none ∧
    readUnits [0, 0, 0, 0, 0x58, 0x58, 0x58, 0x58, 0, 0, 0, 0] [0] =
      readUnits [0, 0, 0, 0, 0x58, 0x58, 0x58, 0x58, 0, 0, 0, 0] [] := by
  have h := unknown_tag_skipped [0, 0, 0, 0, 0x58, 0x58, 0x58, 0x58, 0, 0, 0, 0]
    0 0 (by decide) (by decide) (by decide) (by decide) (by decide) (by decide)
  exact ⟨h.1, h.2 []⟩

/-! ### C6: mask decompression failure aborts the decode -/

theorem readMasksFrom_append_error (D : Decomp) (buf : Bytes) (ε : Err)
    (o : Nat) (offs2 : List Nat) (hrec : New.readMaskAt D buf o = .error ε) :
    ∀ (offs1 : List Nat) (ms : List Mask),
      New.readMasksFrom D buf offs1 = .ok ms →
      New.readMasksFrom D buf (offs1 ++ o :: offs2) = .error ε
  | [], _, _ => by
    simp only [List.nil_append, New.readMasksFrom, hrec]
  | a :: offs1, ms, hpre => by
    simp only [New.readMasksFrom, List.cons_append] at hpre ⊢
    cases ha : New.readMaskAt D buf a with
    | error e =>
      rw [ha] at hpre
      dsimp only at hpre
      cases hpre
    | ok m =>
      rw [ha] at hpre
      dsimp only at hpre ⊢
      cases hrest : New.readMasksFrom D buf offs1 with
      | error e =>
        rw [hrest] at hpre
        dsimp only at hpre
        cases hpre
      | ok ms2 =>
        have hx := readMasksFrom_append_error D buf ε o offs2 hrec offs1 ms2 hrest
        rw [show New.readMasksFrom D buf (List.append offs1 (o :: offs2)) =
              .error ε from hx]

/-- C6: if the mask-record loop reaches a record whose compressed payload
the external decompressor rejects (a non-OK status), the whole decode of
the archive fails with `MaskDecompressionFailed` — the record is not
skipped, no partial result is produced, and the tile units are never
read. -/
theorem mask_decompression_failure_aborts (D : Decomp) (buf : Bytes)
    (hdr : MapHeader) (p pt : Nat) (offs1 : List Nat) (o : Nat)
    (offs2 : List Nat) (ms : List Mask)
    (hh : read_header buf = .ok (hdr, p))
    (ht : maskTable buf p = .ok (offs1 ++ o :: offs2, pt))
    (hpre : New.readMasksFrom D buf offs1 = .ok ms)
    (hx : o + 20 ≤ buf.length)
    (hsz : o + 20 + leU32 (slice buf (o + 16) 4) ≤ buf.length)
    (hD : D (slice buf (o + 20) (leU32 (slice buf (o + 16) 4)))
        (maskOutLen (leU32 (slice buf (o + 8) 4)) (leU32 (slice buf (o + 12) 4))) =
        none) :
    New.decode D buf = .error .maskDecompressionFailed := by
  have hrec : New.readMaskAt D buf o = .error .maskDecompressionFailed := by
    unfold New.readMaskAt seekStart
    dsimp only
    rw [readU32_ok buf o (by omega)]
    dsimp only
    rw [readU32_ok buf (o + 4) (by omega)]
    dsimp only
    have e8 : o + 4 + 4 = o + 8 := by omega
    rw [e8, readU32_ok buf (o + 8) (by omega)]
    dsimp only
    have e12 : o + 8 + 4 = o + 12 := by omega
    rw [e12, readU32_ok buf (o + 12) (by omega)]
    dsimp only
    have e16 : o + 12 + 4 = o + 16 := by omega
    rw [e16, readU32_ok buf (o + 16) (by omega)]
    dsimp only
    have e20 : o + 16 + 4 = o + 20 := by omega
    rw [e20, readBytes_ok buf (o + 20) (leU32 (slice buf (o + 16) 4)) (by omega)]
    dsimp only
    rw [hD]
  have hmask : New.read_mask D buf p = .error .maskDecompressionFailed := by
    unfold New.read_mask
    rw [ht]
    dsimp only
    exact readMasksFrom_append_error D buf _ o offs2 hrec offs1 ms hpre
  unfold New.decode
  rw [hh]
  dsimp only
  rw [hmask]

/-- A minimal archive with one mask record (x = y = 0,
width = height = size = 1, payload `[0xAA]` at byte 44) and no tiles
(header width = height = 0). -/
def maskArch : Bytes :=
  magicBytes ++ [0, 0, 0, 0] ++ [0, 0, 0, 0] ++
    [0, 0, 0, 0] ++ [1, 0, 0, 0] ++ [24, 0, 0, 0] ++
    [0, 0, 0, 0] ++ [0, 0, 0, 0] ++ [1, 0, 0, 0] ++ [1, 0, 0, 0] ++
    [1, 0, 0, 0] ++ [0xAA]

/-- Witness for C6: decoding `maskArch` with an always-failing
decompressor aborts with `MaskDecompressionFailed`. -/
theorem mask_decompression_failure_witness :
    New.decode noDecomp maskArch = .error .maskDecompressionFailed :=
  mask_decompression_failure_aborts noDecomp maskArch
    { flag := 1295068720, width := 0, height := 0, map_index_list := [],
      rows := 0, cols := 0, index_size := 0 } 12 24 [] 24 [] []
    (by decide) (by decide) (by decide) (by decide) (by decide) (by decide)

/-! ### C10: the two pipeline variants are not equivalent -/

theorem readBytes_error_eq (buf : Bytes) (p n : Nat) (ε : Err)
    (h : readBytes buf p n = .error ε) : ε = .truncated := by
  unfold readBytes at h
  split at h
  · cases h
  · cases h; rfl

theorem readU32_error_eq (buf : Bytes) (p : Nat) (ε : Err)
    (h : readU32 buf p = .error ε) : ε = .truncated := by
  unfold readU32 at h
  cases hb : readBytes buf p 4 with
  | error e =>
    rw [hb] at h
    dsimp only at h
    cases h
    exact readBytes_error_eq _ _ _ _ hb
  | ok v =>
    rw [hb] at h
    obtain ⟨bs, p1⟩ := v
    dsimp only at h
    cases h

theorem chunksU32_error_eq : ∀ (bs : Bytes) (ε : Err),
    chunksU32 bs = .error ε → ε = .panicked
  | [], ε, h => by simp only [chunksU32] at h; cases h
  | a :: b :: c :: d :: rest, ε, h => by
    simp only [chunksU32] at h
    cases hr : chunksU32 rest with
    | error e =>
      rw [hr] at h
      dsimp only at h
      cases h
      exact chunksU32_error_eq rest _ hr
    | ok l =>
      rw [hr] at h
      dsimp only at h
      cases h
  | [a], ε, h => by simp only [chunksU32] at h; cases h; rfl
  | [a, b], ε, h => by simp only [chunksU32] at h; cases h; rfl
  | [a, b, c], ε, h => by simp only [chunksU32] at h; cases h; rfl

theorem maskTable_error_eq (buf : Bytes) (p : Nat) (ε : Err)
    (h : maskTable buf p = .error ε) : ε = .truncated ∨ ε = .panicked := by
  unfold maskTable at h
  cases h1 : readU32 buf p with
  | error e =>
    rw [h1] at h; dsimp only at h; cases h
    exact .inl (readU32_error_eq _ _ _ h1)
  | ok v1 =>
    rw [h1] at h; obtain ⟨u, p1⟩ := v1; dsimp only at h
    cases h2 : readU32 buf p1 with
    | error e =>
      rw [h2] at h; dsimp only at h; cases h
      exact .inl (readU32_error_eq _ _ _ h2)
    | ok v2 =>
      rw [h2] at h; obtain ⟨mn, p2⟩ := v2; dsimp only at h
      cases h3 : readBytes buf p2 (mn * 4 % U32M) with
      | error e =>
        rw [h3] at h; dsimp only at h; cases h
        exact .inl (readBytes_error_eq _ _ _ _ h3)
      | ok v3 =>
        rw [h3] at h; obtain ⟨md, p3⟩ := v3; dsimp only at h
        cases h4 : chunksU32 md with
        | error e =>
          rw [h4] at h; dsimp only at h; cases h
          exact .inr (chunksU32_error_eq _ _ h4)
        | ok offs => rw [h4] at h; dsimp only at h; cases h

theorem read_header_error_not_mdf (buf : Bytes) (ε : Err)
    (h : read_header buf = .error ε) : ε ≠ .maskDecompressionFailed := by
  unfold read_header at h
  cases h1 : readBytes buf 0 4 with
  | error e =>
    rw [h1] at h; dsimp only at h; cases h
    rw [readBytes_error_eq _ _ _ _ h1]; decide
  | ok v1 =>
    rw [h1] at h; obtain ⟨flagBytes, p1⟩ := v1; dsimp only at h
    by_cases h2 : validUtf8 flagBytes
    · rw [if_pos h2] at h
      by_cases h3 : flagBytes = magicBytes
      · rw [if_pos h3] at h
        cases h4 : readU32 buf p1 with
        | error e =>
          rw [h4] at h; dsimp only at h; cases h
          rw [readU32_error_eq _ _ _ h4]; decide
        | ok v2 =>
          rw [h4] at h; obtain ⟨width, p2⟩ := v2; dsimp only at h
          cases h5 : readU32 buf p2 with
          | error e =>
            rw [h5] at h; dsimp only at h; cases h
            rw [readU32_error_eq _ _ _ h5]; decide
          | ok v3 =>
            rw [h5] at h; obtain ⟨height, p3⟩ := v3; dsimp only at h
            cases h6 : readBytes buf p3 (rowsOf height * colsOf width % U32M * 4 % U32M) with
            | error e =>
              rw [h6] at h; dsimp only at h; cases h
              rw [readBytes_error_eq _ _ _ _ h6]; decide
            | ok v4 =>
              rw [h6] at h; obtain ⟨indexBytes, p4⟩ := v4; dsimp only at h
              cases h7 : chunksU32 indexBytes with
              | error e =>
                rw [h7] at h; dsimp only at h; cases h
                rw [chunksU32_error_eq _ _ h7]; decide
              | ok lst => rw [h7] at h; dsimp only at h; cases h
      · rw [if_neg h3] at h; cases h; decide
    · rw [if_neg h2] at h; cases h; decide

theorem Old.readMaskAt_error_eq (buf : Bytes) (o : Nat) (ε : Err)
    (h : Old.readMaskAt buf o = .error ε) : ε = .truncated := by
  unfold Old.readMaskAt seekStart at h
  dsimp only at h
  cases h1 : readU32 buf o with
  | error e =>
    rw [h1] at h; dsimp only at h; cases h
    exact readU32_error_eq _ _ _ h1
  | ok v1 =>
    rw [h1] at h; obtain ⟨x, p1⟩ := v1; dsimp only at h
    cases h2 : readU32 buf p1 with
    | error e =>
      rw [h2] at h; dsimp only at h; cases h
      exact readU32_error_eq _ _ _ h2
    | ok v2 =>
      rw [h2] at h; obtain ⟨y, p2⟩ := v2; dsimp only at h
      cases h3 : readU32 buf p2 with
      | error e =>
        rw [h3] at h; dsimp only at h; cases h
        exact readU32_error_eq _ _ _ h3
      | ok v3 =>
        rw [h3] at h; obtain ⟨w, p3⟩ := v3; dsimp only at h
        cases h4 : readU32 buf p3 with
        | error e =>
          rw [h4] at h; dsimp only at h; cases h
          exact readU32_error_eq _ _ _ h4
        | ok v4 =>
          rw [h4] at h; obtain ⟨ht, p4⟩ := v4; dsimp only at h
          cases h5 : readU32 buf p4 with
          | error e =>
            rw [h5] at h; dsimp only at h; cases h
            exact readU32_error_eq _ _ _ h5
          | ok v5 =>
            rw [h5] at h; obtain ⟨sz, p5⟩ := v5; dsimp only at h
            cases h6 : readBytes buf p5 sz with
            | error e =>
              rw [h6] at h; dsimp only at h; cases h
              exact readBytes_error_eq _ _ _ _ h6
            | ok v6 =>
              rw [h6] at h; obtain ⟨data, p6⟩ := v6; dsimp only at h
              cases h

theorem Old.readMasksFrom_error_eq : ∀ (buf : Bytes) (offs : List Nat) (ε : Err),
    Old.readMasksFrom buf offs = .error ε → ε = .truncated
  | buf, [], ε, h => by simp only [Old.readMasksFrom] at h; cases h
  | buf, o :: rest, ε, h => by
    simp only [Old.readMasksFrom] at h
    cases h1 : Old.readMaskAt buf o with
    | error e =>
      rw [h1] at h; dsimp only at h; cases h
      exact Old.readMaskAt_error_eq _ _ _ h1
    | ok m =>
      rw [h1] at h; dsimp only at h
      cases h2 : Old.readMasksFrom buf rest with
      | error e =>
        rw [h2] at h; dsimp only at h; cases h
        exact Old.readMasksFrom_error_eq buf rest _ h2
      | ok ms => rw [h2] at h; dsimp only at h; cases h

theorem Old.read_mask_error_not_mdf (buf : Bytes) (p : Nat) (ε : Err)
    (h : Old.read_mask buf p = .error ε) : ε ≠ .maskDecompressionFailed := by
  unfold Old.read_mask at h
  cases h1 : maskTable buf p with
  | error e =>
    rw [h1] at h; dsimp only at h; cases h
    rcases maskTable_error_eq _ _ _ h1 with he | he <;> (rw [he]; decide)
  | ok v =>
    rw [h1] at h; obtain ⟨offs, pt⟩ := v; dsimp only at h
    rw [Old.readMasksFrom_error_eq buf offs _ h]
    decide

theorem jpegFixGo_error_eq : ∀ (fuel index : Nat) (data : Bytes) (fl : Bool) (ε : Err),
    jpegFixGo fuel index data fl = .error ε → ε = .panicked := by
  intro fuel
  induction fuel with
  | zero =>
    intro index data fl ε h
    simp only [jpegFixGo] at h
    cases h
  | succ f ih =>
    intro index data fl ε h
    cases fl <;> simp only [jpegFixGo] at h <;> repeat' split at h
    all_goals first
      | (exact ih _ _ _ _ h)
      | (cases h <;> rfl)

theorem jpegFix_error_eq (data : Bytes) (ε : Err)
    (h : jpegFix data = .error ε) : ε = .panicked :=
  jpegFixGo_error_eq data.length 0 data false ε h

theorem readUnitAt_error_not_mdf (buf : Bytes) (o : Nat) (ε : Err)
    (h : readUnitAt buf o = .error ε) : ε ≠ .maskDecompressionFailed := by
  unfold readUnitAt seekStart at h
  dsimp only at h
  cases h1 : readU32 buf o with
  | error e =>
    rw [h1] at h; dsimp only at h; cases h
    rw [readU32_error_eq _ _ _ h1]; decide
  | ok v1 =>
    rw [h1] at h; obtain ⟨u, p1⟩ := v1; dsimp only at h
    cases h2 : readBytes buf p1 (4 * u % U32M) with
    | error e =>
      rw [h2] at h; dsimp only at h; cases h
      rw [readBytes_error_eq _ _ _ _ h2]; decide
    | ok v2 =>
      rw [h2] at h; obtain ⟨junk, p2⟩ := v2; dsimp only at h
      cases h3 : readBytes buf p2 8 with
      | error e =>
        rw [h3] at h; dsimp only at h; cases h
        rw [readBytes_error_eq _ _ _ _ h3]; decide
      | ok v3 =>
        rw [h3] at h; obtain ⟨head, p3⟩ := v3; dsimp only at h
        by_cases h4 : validUtf8 (head.take 4)
        · rw [if_pos h4] at h
          by_cases h5 : head.take 4 = gepjTag
          · rw [if_pos h5] at h
            cases h6 : readBytes buf p3 (leU32 (head.drop 4)) with
            | error e =>
              rw [h6] at h; dsimp only at h; cases h
              rw [readBytes_error_eq _ _ _ _ h6]; decide
            | ok v4 =>
              rw [h6] at h; obtain ⟨payload, p4⟩ := v4; dsimp only at h
              cases h7 : jpegFix payload with
              | error e =>
                rw [h7] at h; dsimp only at h; cases h
                rw [jpegFix_error_eq _ _ h7]; decide
              | ok fx => rw [h7] at h; dsimp only at h; cases h
          · rw [if_neg h5] at h
            by_cases h8 : head.take 4 = jpg2Tag
            · rw [if_pos h8] at h
              cases h9 : readBytes buf p3 (leU32 (head.drop 4)) with
              | error e =>
                rw [h9] at h; dsimp only at h; cases h
                rw [readBytes_error_eq _ _ _ _ h9]; decide
              | ok v5 =>
                rw [h9] at h; obtain ⟨payload, p4⟩ := v5; dsimp only at h
                cases h
            · rw [if_neg h8] at h; cases h
        · rw [if_neg h4] at h; cases h; decide

theorem readUnits_error_not_mdf : ∀ (buf : Bytes) (offs : List Nat) (ε : Err),
    readUnits buf offs = .error ε → ε ≠ .maskDecompressionFailed
  | buf, [], ε, h => by simp only [readUnits] at h; cases h
  | buf, o :: rest, ε, h => by
    simp only [readUnits] at h
    cases h1 : readUnitAt buf o with
    | error e =>
      rw [h1] at h; dsimp only at h; cases h
      exact readUnitAt_error_not_mdf _ _ _ h1
    | ok ou =>
      rw [h1] at h
      cases ou with
      | none =>
        dsimp only at h
        exact readUnits_error_not_mdf buf rest ε h
      | some un =>
        dsimp only at h
        cases h2 : readUnits buf rest with
        | error e =>
          rw [h2] at h; dsimp only at h; cases h
          exact readUnits_error_not_mdf buf rest _ h2
        | ok us => rw [h2] at h; dsimp only at h; cases h

theorem Old.decode_no_mdf (buf : Bytes) :
    Old.decode buf ≠ .error .maskDecompressionFailed := by
  intro hc
  unfold Old.decode at hc
  cases h1 : read_header buf with
  | error e =>
    rw [h1] at hc; dsimp only at hc; cases hc
    exact read_header_error_not_mdf _ _ h1 rfl
  | ok v =>
    rw [h1] at hc; obtain ⟨hdr, p1⟩ := v; dsimp only at hc
    cases h2 : Old.read_mask buf p1 with
    | error e =>
      rw [h2] at hc; dsimp only at hc; cases hc
      exact Old.read_mask_error_not_mdf _ _ _ h2 rfl
    | ok masks =>
      rw [h2] at hc; dsimp only at hc
      cases h3 : readUnits buf hdr.map_index_list with
      | error e =>
        rw [h3] at hc; dsimp only at hc; cases hc
        exact readUnits_error_not_mdf _ _ _ h3 rfl
      | ok units => rw [h3] at hc; dsimp only at hc; cases hc

/-- A decompressor producing a buffer of exactly the requested length,
filled with the byte 7 — a stand-in for a successful decompression, per
the spec §6 contract. -/
def okDecomp7 : Decomp := fun _ len => some (List.replicate len 7)

/-- C10: the two decode variants are not equivalent on mask content: the
variant without rendering can never fail with `MaskDecompressionFailed`
and stores the raw compressed payload (`[0xAA]` for `maskArch`), while
the rendering variant runs the decompressor and stores the decompressed
bit-plane (`[7]` under `okDecomp7`), whose length is
`(align4 width * height) >> 2` — so the two decoders return different
`Mask` data for the same input bytes. -/
theorem variants_not_equivalent :
    (∀ buf, Old.decode buf ≠ .error .maskDecompressionFailed) ∧
    (Old.decode maskArch).map (fun m => m.masks.map Mask.data) = .ok [[0xAA]] ∧
    (New.decode okDecomp7 maskArch).map (fun m => m.masks.map Mask.data) =
      .ok [[7]] ∧
    ([7] : Bytes).length = (align4Spec 1 * 1) >>> 2 ∧
    ([0xAA] : Bytes) ≠ ([7] : Bytes) :=
  ⟨Old.decode_no_mdf, by decide, by decide, by decide, by decide⟩

end MapUtils
